import Mathlib

/-!
Verification of the multi-part archive extractor
(`multi_part_extractor.py` and `mass_extractor.py`).

The filesystem-free embedding models filenames as `String`s, a workspace
as a list of files (directory part plus basename), and the destination
directory as a list of produced entries.  External tools (unzip, unrar,
7z, the Python zipfile/rarfile libraries) are modelled by parameters
describing their outcome; the Python-level control flow around them is
translated function by function from the source.

String primitives (`str.lower`, `str.endswith`, `pathlib`'s `stem` and
`suffix`) are implemented over `List Char` so that every definition is
kernel-computable on concrete filenames.
-/

namespace Extractor

/-- Character-wise lower-casing, modelling `str.lower()` on filenames. -/
def lowerChars (cs : List Char) : List Char := cs.map Char.toLower

/-- `post` is a suffix of `cs`, modelling `str.endswith`. -/
def hasSuffix (cs post : List Char) : Bool :=
  cs.reverse.take post.length == post.reverse

/-- A file inside the scratch workspace: the directory part of its path
relative to the workspace root, and its basename (`Path.name`). -/
structure WFile where
  dir : String
  name : String
deriving DecidableEq, Repr

/-- `is_core_archive` from `multi_part_extractor.py` (lines 41-63):
lower-case the basename; `.rar` / `.zip` / `.7z` endings are core,
and the regex `\.7z\.001$` (i.e. a `.7z.001` ending) is core too. -/
def is_core_archive (filename : String) : Bool :=
  let f := lowerChars filename.data
  if hasSuffix f ".rar".data || hasSuffix f ".zip".data || hasSuffix f ".7z".data then
    true
  else if hasSuffix f ".7z.001".data then
    true
  else
    false

/-- Reversed-character view of `\.r\d+$`: one or more digits, then `r`,
then a dot (the pattern is applied to the already lower-cased name). -/
def endsRSplit (cs : List Char) : Bool :=
  match cs with
  | c :: rest =>
    c.isDigit &&
      (match rest.dropWhile (fun d => d.isDigit) with
       | 'r' :: '.' :: _ => true
       | _ => false)
  | [] => false

/-- Reversed-character view of `\.\d{3}$`: exactly three digits after a dot. -/
def endsThreeDigits (cs : List Char) : Bool :=
  match cs with
  | a :: b :: c :: '.' :: _ => a.isDigit && b.isDigit && c.isDigit
  | _ => false

/-- Reversed-character view of `\.z\d{2}$`. -/
def endsZSplit (cs : List Char) : Bool :=
  match cs with
  | a :: b :: 'z' :: '.' :: _ => a.isDigit && b.isDigit
  | _ => false

/-- Reversed-character view of `\.7z\.\d{3}$`. -/
def endsSevenZSplit (cs : List Char) : Bool :=
  match cs with
  | a :: b :: c :: '.' :: 'z' :: '7' :: '.' :: _ =>
    a.isDigit && b.isDigit && c.isDigit
  | _ => false

/-- The `skip_regex` of `move_non_archives` (lines 100-106): the union of
the four split-part patterns, searched (all are `$`-anchored, so
searching equals matching a suffix) on the lower-cased basename. -/
def skip_regex_search (filename : String) : Bool :=
  let cs := (lowerChars filename.data).reverse
  endsRSplit cs || endsThreeDigits cs || endsZSplit cs || endsSevenZSplit cs

/-- `pathlib.PurePath.stem` on a basename: drop the substring starting at
the last dot, provided that dot is neither the first nor the last
character; otherwise the name is returned unchanged. -/
def stemChars (cs : List Char) : List Char :=
  let rev := cs.reverse
  let pre := rev.dropWhile (fun c => c ≠ '.')
  if pre = [] then cs
  else if pre.tail = [] then cs
  else if rev.takeWhile (fun c => c ≠ '.') = [] then cs
  else pre.tail.reverse

/-- `Path.stem`, as used at line 190 of `multi_part_extractor.py` and
line 71 of `mass_extractor.py`. -/
def stem (name : String) : String := String.mk (stemChars name.data)

/-- `pathlib.PurePath.suffix` on a basename: the substring from the last
dot on, provided that dot is neither the first nor the last character;
otherwise the empty string. -/
def suffixChars (cs : List Char) : List Char :=
  let rev := cs.reverse
  let pre := rev.dropWhile (fun c => c ≠ '.')
  if pre = [] then []
  else if pre.tail = [] then []
  else if rev.takeWhile (fun c => c ≠ '.') = [] then []
  else '.' :: (rev.takeWhile (fun c => c ≠ '.')).reverse

/-- `Path.suffix`, as used at lines 26 and 29 of `mass_extractor.py`. -/
def pathSuffix (name : String) : String := String.mk (suffixChars name.data)

/-- Outcome of the external tool invocation inside
`multi_part_extractor.extract_archive` (lines 85-90): the subprocess
exits cleanly, exits non-zero (`subprocess.run(..., check=True)` raises
`CalledProcessError`), or some other exception is raised (e.g. the tool
binary is missing). -/
inductive ToolRun where
  | ok
  | exitNonZero
  | raiseOther
deriving DecidableEq, Repr

/-- `extract_archive` from `multi_part_extractor.py` (lines 66-90).  The
function body returns `None` on every path it completes: a clean tool
exit falls through, and a `CalledProcessError` is caught and logged.
Any other raised error is not caught and propagates to the caller
(modelled as `Except.error`). -/
def mpe_extract_archive (run : ToolRun) : Except Unit Unit :=
  match run with
  | ToolRun.ok => Except.ok ()
  | ToolRun.exitNonZero => Except.ok ()
  | ToolRun.raiseOther => Except.error ()

/-- Outcome of a `zipfile`/`rarfile` `extractall` call inside
`mass_extractor.extract_archive`: either it completes, or it raises. -/
inductive LibRun where
  | ok
  | raises
deriving DecidableEq, Repr

/-- `extract_archive` from `mass_extractor.py` (lines 14-35): dispatch on
the (lower-cased) last path suffix; `.zip` and `.rar` run the library
extraction, any exception is caught and surfaced as `False`; any other
suffix runs nothing and returns `True`. -/
def me_extract_archive (run : LibRun) (name : String) : Bool :=
  if (lowerChars (pathSuffix name).data) = ".zip".data ∨
     (lowerChars (pathSuffix name).data) = ".rar".data then
    match run with
    | LibRun.ok => true
    | LibRun.raises => false
  else
    true

/-- Number of workspace files the Archive Classifier marks core. -/
def countCore (ws : List WFile) : Nat :=
  (ws.filter (fun f => is_core_archive f.name)).length

/-- The body of the `for archive in archives` loop of
`recursively_extract` (lines 152-160): each candidate is extracted into
the destination folder (`er a` is the list of entries the external tool
writes there; an extraction that fails writes nothing), and then the
candidate file is unlinked from the workspace — unconditionally, except
that the unlink itself may raise (`delOk a = false`), which is only
logged.  The state is the pair (workspace files, destination entries). -/
def processArchives (delOk : WFile → Bool) (er : WFile → List String) :
    List WFile → List WFile × List String → List WFile × List String
  | [], st => st
  | a :: rest, (ws, dest) =>
    processArchives delOk er rest
      (if delOk a then ws.erase a else ws, dest ++ er a)

/-- `recursively_extract` from `multi_part_extractor.py` (lines 132-160),
with an explicit fuel bound on the number of `while` iterations: scan
the workspace for core archives; if none remain, stop (the loop's
`break`); otherwise process every candidate and rescan.  `none` means
the fuel ran out before the loop reached its `break`. -/
def recursively_extract (delOk : WFile → Bool) (er : WFile → List String) :
    Nat → List WFile → List String → Option (List WFile × List String)
  | 0, _, _ => none
  | fuel + 1, ws, dest =>
    let archives := ws.filter (fun f => is_core_archive f.name)
    if archives.isEmpty then some (ws, dest)
    else
      let st := processArchives delOk er archives (ws, dest)
      recursively_extract delOk er fuel st.1 st.2

/-- One step of the walk loop of `move_non_archives` (lines 108-129) for
a single file: skip it if `skip_regex` matches the lower-cased basename;
skip it if `is_core_archive` holds; otherwise `shutil.move` it onto the
destination directory.  Since the destination is an existing directory,
`shutil.move` targets `dest_dir/<basename>`; if that path already
exists it raises `shutil.Error` without overwriting (`none`), otherwise
the file is placed there (`some` of the grown destination).  The
destination is modelled as an association list from basename to the
source file whose content lives there. -/
def moveStep (d : List (String × WFile)) (f : WFile) :
    Option (List (String × WFile)) :=
  if skip_regex_search f.name then some d
  else if is_core_archive f.name then some d
  else if d.any (fun p => p.1 = f.name) then none
  else some ((f.name, f) :: d)

/-- `move_non_archives` from `multi_part_extractor.py` (lines 93-129):
walk the workspace files in order and apply `moveStep` to each; nothing
catches the `shutil.Error` of a basename collision, so it propagates
and aborts the walk (`Except.error`, carrying the destination contents
at the moment of the abort). -/
def move_non_archives :
    List WFile → List (String × WFile) →
      Except (List (String × WFile)) (List (String × WFile))
  | [], d => Except.ok d
  | f :: t, d =>
    match moveStep d f with
    | some d2 => move_non_archives t d2
    | none => Except.error d

/-- The destination contents after the relocation walk, whether it
completed or aborted on a raised `shutil.Error`. -/
def destAfter (r : Except (List (String × WFile)) (List (String × WFile))) :
    List (String × WFile) :=
  match r with
  | Except.ok d => d
  | Except.error d => d

/-- The per-archive loop of `main` in `multi_part_extractor.py`
(lines 182-221): `archives` is the scan of the input folder (core files
only, in iteration order), `folders` the set of destination subfolders
existing on disk, `count` the running `processed_count`.  The loop
breaks once `max_files and processed_count >= max_files` is truthy,
skips an archive whose `stem`-named destination folder exists, and
otherwise creates the folder and processes the archive (incrementing
the count whether or not the underlying extraction succeeded).  Returns
the list of archives processed this run and the final set of folders. -/
def orchestrate (maxFiles : Nat) :
    List String → List String → Nat → List String × List String
  | [], folders, _ => ([], folders)
  | a :: rest, folders, count =>
    if maxFiles ≠ 0 ∧ maxFiles ≤ count then ([], folders)
    else if stem a ∈ folders then orchestrate maxFiles rest folders count
    else
      let r := orchestrate maxFiles rest (stem a :: folders) (count + 1)
      (a :: r.1, r.2)

/-- Reference behaviour for an uncapped run: process every archive whose
destination folder does not already exist, in order. -/
def processAll : List String → List String → List String × List String
  | [], folders => ([], folders)
  | a :: rest, folders =>
    if stem a ∈ folders then processAll rest folders
    else
      let r := processAll rest (stem a :: folders)
      (a :: r.1, r.2)

/-- The per-archive loop of `extract_archives` in `mass_extractor.py`
(lines 66-86): `numFiles` is the `-n` argument (`none` when absent),
`outcome` the library behaviour per archive.  A file whose target
folder exists is skipped (incrementing `skipped_count`); otherwise the
archive is extracted, `processed_count` is incremented on success, and
then `processed_count >= num_files` is evaluated — a `TypeError`
(modelled as `Except.error`) when `num_files` is `None`, a `break` when
the comparison holds.  Returns `(processed_count, skipped_count)`. -/
def me_loop (numFiles : Option Nat) (outcome : String → LibRun) :
    List String → List String → Nat → Nat → Except Unit (Nat × Nat)
  | [], _, p, s => Except.ok (p, s)
  | a :: rest, folders, p, s =>
    if stem a ∈ folders then me_loop numFiles outcome rest folders p (s + 1)
    else
      let ok := me_extract_archive (outcome a) a
      let p' := if ok then p + 1 else p
      let folders' := if ok then stem a :: folders else folders
      match numFiles with
      | none => Except.error ()
      | some n => if n ≤ p' then Except.ok (p', s)
                  else me_loop numFiles outcome rest folders' p' s

/-- A workspace file that `move_non_archives` actually moves: neither a
split segment nor a core archive. -/
def movable (f : WFile) : Bool :=
  !skip_regex_search f.name && !is_core_archive f.name

/-- Modelled from the spec for claim C8: the destination subfolder name
is the archive filename with its recognized archive suffix stripped —
`.rar` / `.zip` / `.7z` endings are removed, and for a `.7z.001` family
the spec's own example strips only the trailing `.001` (keeping
`movie.7z`). -/
def specStrippedName (name : String) : String :=
  let f := lowerChars name.data
  if hasSuffix f ".7z.001".data then String.mk (name.data.take (name.data.length - 4))
  else if hasSuffix f ".rar".data then String.mk (name.data.take (name.data.length - 4))
  else if hasSuffix f ".zip".data then String.mk (name.data.take (name.data.length - 4))
  else if hasSuffix f ".7z".data then String.mk (name.data.take (name.data.length - 3))
  else name

/-- Claim C5: `is_core_archive` returns true exactly when the
lower-cased filename ends with `.rar`, `.zip`, or `.7z` (and nothing
else follows) or ends with `.7z.001`; in particular the spec's seven
test vectors hold.  The function is a pure function of the filename by
construction. -/
theorem is_core_archive_characterization :
    (∀ s : String, is_core_archive s = true ↔
      (hasSuffix (lowerChars s.data) ".rar".data = true ∨
       hasSuffix (lowerChars s.data) ".zip".data = true ∨
       hasSuffix (lowerChars s.data) ".7z".data = true ∨
       hasSuffix (lowerChars s.data) ".7z.001".data = true)) ∧
    is_core_archive "x.rar" = true ∧ is_core_archive "x.zip" = true ∧
    is_core_archive "x.7z" = true ∧ is_core_archive "x.7z.001" = true ∧
    is_core_archive "x.r01" = false ∧ is_core_archive "x.z02" = false ∧
    is_core_archive "x.7z.002" = false := by
  refine ⟨?_, by decide, by decide, by decide, by decide, by decide,
    by decide, by decide⟩
  intro s
  unfold is_core_archive
  cases h1 : hasSuffix (lowerChars s.data) ".rar".data <;>
    cases h2 : hasSuffix (lowerChars s.data) ".zip".data <;>
      cases h3 : hasSuffix (lowerChars s.data) ".7z".data <;>
        cases h4 : hasSuffix (lowerChars s.data) ".7z.001".data <;>
          simp_all

/-- Claim C5 (witness): the characterization applied at `"x.rar"`. -/
theorem is_core_archive_characterization_witness :
    is_core_archive "x.rar" = true :=
  (is_core_archive_characterization.1 "x.rar").mpr (Or.inl (by decide))

/-- Claim C3 (counterexample): `extract_archive` of
`multi_part_extractor.py` does not surface failure in a return flag — a
non-zero tool exit returns exactly what a clean run returns (`None`),
and an extraction error other than `CalledProcessError` is not caught:
it propagates and aborts the run. -/
theorem mpe_extract_archive_no_flag :
    mpe_extract_archive ToolRun.raiseOther = Except.error () ∧
    mpe_extract_archive ToolRun.exitNonZero = mpe_extract_archive ToolRun.ok :=
  ⟨rfl, rfl⟩

/-- Claim C3 (amended): `mass_extractor`'s `extract_archive` returns a
boolean flag and surfaces exactly the raised extraction errors on
`.zip`/`.rar` files as `False` (other suffixes run nothing and return
`True`); `multi_part_extractor`'s `extract_archive` returns no flag —
it logs a non-zero tool exit and returns normally, while any other
raised error propagates to the caller. -/
theorem extract_archive_error_handling :
    (∀ (run : LibRun) (name : String),
      me_extract_archive run name = false ↔
        (run = LibRun.raises ∧
          ((lowerChars (pathSuffix name).data) = ".zip".data ∨
           (lowerChars (pathSuffix name).data) = ".rar".data))) ∧
    mpe_extract_archive ToolRun.ok = Except.ok () ∧
    mpe_extract_archive ToolRun.exitNonZero = Except.ok () ∧
    mpe_extract_archive ToolRun.raiseOther = Except.error () := by
  refine ⟨?_, rfl, rfl, rfl⟩
  intro run name
  unfold me_extract_archive
  cases run <;> split <;> simp_all

/-- Claim C3 (witness): a raised `rarfile` error on `x.rar` is surfaced
as `success = false` by `mass_extractor`'s `extract_archive`. -/
theorem extract_archive_error_handling_witness :
    me_extract_archive LibRun.raises "x.rar" = false :=
  (extract_archive_error_handling.1 LibRun.raises "x.rar").mpr
    ⟨rfl, Or.inr (by decide)⟩

theorem movable_iff (f : WFile) :
    movable f = true ↔
      skip_regex_search f.name = false ∧ is_core_archive f.name = false := by
  unfold movable
  cases skip_regex_search f.name <;> cases is_core_archive f.name <;> simp

theorem move_non_archives_nil (d : List (String × WFile)) :
    move_non_archives [] d = Except.ok d := rfl

theorem move_non_archives_cons (f : WFile) (t : List WFile)
    (d : List (String × WFile)) :
    move_non_archives (f :: t) d =
      match moveStep d f with
      | some d2 => move_non_archives t d2
      | none => Except.error d := rfl

theorem moveStep_movable_fresh (d : List (String × WFile)) (f : WFile)
    (hm : movable f = true)
    (hfresh : d.any (fun p => p.1 = f.name) = false) :
    moveStep d f = some ((f.name, f) :: d) := by
  obtain ⟨h1, h2⟩ := (movable_iff f).mp hm
  unfold moveStep
  rw [if_neg (by simp [h1]), if_neg (by simp [h2]), if_neg (by simp [hfresh])]

theorem moveStep_movable_clash (d : List (String × WFile)) (f : WFile)
    (hm : movable f = true)
    (hclash : d.any (fun p => p.1 = f.name) = true) :
    moveStep d f = none := by
  obtain ⟨h1, h2⟩ := (movable_iff f).mp hm
  unfold moveStep
  rw [if_neg (by simp [h1]), if_neg (by simp [h2]), if_pos hclash]

theorem moveStep_mono (d d2 : List (String × WFile)) (f : WFile)
    (p : String × WFile) (h : moveStep d f = some d2) (hp : p ∈ d) : p ∈ d2 := by
  unfold moveStep at h
  by_cases h1 : skip_regex_search f.name = true
  · rw [if_pos h1] at h
    obtain rfl : d = d2 := by injection h
    exact hp
  · rw [if_neg h1] at h
    by_cases h2 : is_core_archive f.name = true
    · rw [if_pos h2] at h
      obtain rfl : d = d2 := by injection h
      exact hp
    · rw [if_neg h2] at h
      by_cases h3 : d.any (fun q => q.1 = f.name) = true
      · rw [if_pos h3] at h
        exact absurd h (by simp)
      · rw [if_neg h3] at h
        obtain rfl : (f.name, f) :: d = d2 := by injection h
        exact List.mem_cons_of_mem _ hp

theorem move_mem_mono :
    ∀ (ws : List WFile) (d d2 : List (String × WFile)) (p : String × WFile),
      move_non_archives ws d = Except.ok d2 → p ∈ d → p ∈ d2 := by
  intro ws
  induction ws with
  | nil =>
    intro d d2 p h hp
    obtain rfl : d = d2 := by injection h
    exact hp
  | cons f t ih =>
    intro d d2 p h hp
    rw [move_non_archives_cons] at h
    cases hms : moveStep d f with
    | none =>
      rw [hms] at h
      exact absurd h (by simp)
    | some dm =>
      rw [hms] at h
      exact ih dm d2 p h (moveStep_mono d dm f p hms hp)

theorem move_non_archives_append :
    ∀ (u v : List WFile) (d : List (String × WFile)),
      move_non_archives (u ++ v) d =
        match move_non_archives u d with
        | Except.ok d2 => move_non_archives v d2
        | Except.error e => Except.error e := by
  intro u
  induction u with
  | nil =>
    intro v d
    rfl
  | cons f t ih =>
    intro v d
    rw [List.cons_append, move_non_archives_cons, move_non_archives_cons]
    cases hms : moveStep d f with
    | some d2 => exact ih v d2
    | none => rfl

theorem move_entries_sound :
    ∀ (ws : List WFile) (d : List (String × WFile)) (p : String × WFile),
      p ∈ destAfter (move_non_archives ws d) →
      p ∈ d ∨
        (p.2 ∈ ws ∧ skip_regex_search p.2.name = false ∧
          is_core_archive p.2.name = false ∧ p.1 = p.2.name) := by
  intro ws
  induction ws with
  | nil => intro d p hp; exact Or.inl hp
  | cons f t ih =>
    intro d p hp
    rw [move_non_archives_cons] at hp
    cases hms : moveStep d f with
    | none =>
      rw [hms] at hp
      exact Or.inl hp
    | some d2 =>
      rw [hms] at hp
      rcases ih d2 p hp with h | h
      · unfold moveStep at hms
        by_cases h1 : skip_regex_search f.name = true
        · rw [if_pos h1] at hms
          obtain rfl : d = d2 := by injection hms
          exact Or.inl h
        · rw [if_neg h1] at hms
          by_cases h2 : is_core_archive f.name = true
          · rw [if_pos h2] at hms
            obtain rfl : d = d2 := by injection hms
            exact Or.inl h
          · rw [if_neg h2] at hms
            by_cases h3 : d.any (fun q => q.1 = f.name) = true
            · rw [if_pos h3] at hms
              exact absurd hms (by simp)
            · rw [if_neg h3] at hms
              obtain rfl : (f.name, f) :: d = d2 := by injection hms
              rcases List.mem_cons.mp h with h4 | h4
              · subst h4
                refine Or.inr ⟨List.mem_cons_self f t, ?_, ?_, rfl⟩
                · cases hs : skip_regex_search f.name
                  · rfl
                  · exact absurd hs h1
                · cases hc : is_core_archive f.name
                  · rfl
                  · exact absurd hc h2
              · exact Or.inl h4
      · exact Or.inr ⟨List.mem_cons_of_mem f h.1, h.2.1, h.2.2.1, h.2.2.2⟩

/-- Claim C4: every entry of the destination after relocation — whether
the walk completed or aborted on a collision — either was already there
or is a moved workspace file that matches neither the Segment Filter
nor the Archive Classifier; in particular no skipped or core file is
ever moved. -/
theorem move_non_archives_never_moves_segments :
    ∀ (ws : List WFile) (dest : List (String × WFile)) (p : String × WFile),
      p ∈ destAfter (move_non_archives ws dest) →
      p ∈ dest ∨
        (p.2 ∈ ws ∧ skip_regex_search p.2.name = false ∧
          is_core_archive p.2.name = false ∧ p.1 = p.2.name) :=
  move_entries_sound

/-- Claim C4 (witness): a plain payload file is accounted for by the
relocation invariant. -/
theorem move_non_archives_never_moves_segments_witness :
    (("c.txt", WFile.mk "" "c.txt") ∈ ([] : List (String × WFile))) ∨
      ((WFile.mk "" "c.txt") ∈ [WFile.mk "" "c.txt"] ∧
        skip_regex_search "c.txt" = false ∧
        is_core_archive "c.txt" = false ∧ "c.txt" = "c.txt") :=
  move_non_archives_never_moves_segments [WFile.mk "" "c.txt"] []
    ("c.txt", WFile.mk "" "c.txt") (by decide)

/-- Claim C10 (counterexample): with two relocatable files both named
`x.txt`, the second `shutil.move` raises `shutil.Error` because
`dest_dir/x.txt` already exists — `shutil.move` never overwrites: the
run aborts, the earlier file is the one present in the destination, and
the later file was never moved, so the later file does not replace the
earlier one. -/
theorem move_collision_not_replaced :
    move_non_archives [WFile.mk "d1" "x.txt", WFile.mk "d2" "x.txt"] [] =
      Except.error [("x.txt", WFile.mk "d1" "x.txt")] ∧
    ("x.txt", WFile.mk "d1" "x.txt") ∈
      destAfter (move_non_archives
        [WFile.mk "d1" "x.txt", WFile.mk "d2" "x.txt"] []) ∧
    ("x.txt", WFile.mk "d2" "x.txt") ∉
      destAfter (move_non_archives
        [WFile.mk "d1" "x.txt", WFile.mk "d2" "x.txt"] []) :=
  ⟨rfl, by decide, by decide⟩

/-- Claim C10 (amended): if two relocatable files of the workspace walk
share a basename, both are directed at the identical destination path
`dest_dir/<basename>`, but the move of the later one raises
`shutil.Error` (uncaught), aborting the run at that point: the earlier
file survives at that path in the destination and the later file is
never moved there.  The hypotheses say the walk between the two files
completes (`move_non_archives l2 ... = ok d2`) and that nothing else
already occupies or re-introduces the shared basename. -/
theorem move_non_archives_basename_collision_aborts :
    ∀ (l2 l3 : List WFile) (f g : WFile) (d d2 : List (String × WFile)),
      f.name = g.name → movable f = true → movable g = true →
      d.any (fun p => p.1 = f.name) = false →
      move_non_archives l2 ((f.name, f) :: d) = Except.ok d2 →
      g ∉ l2 → (f.name, g) ∉ d → f ≠ g →
      move_non_archives (f :: (l2 ++ g :: l3)) d = Except.error d2 ∧
        (f.name, f) ∈ d2 ∧ (f.name, g) ∉ d2 := by
  intro l2 l3 f g d d2 hname hf hg hfresh hl2 hgl2 hgd hfg
  have hstep : moveStep d f = some ((f.name, f) :: d) :=
    moveStep_movable_fresh d f hf hfresh
  have hmemf : (f.name, f) ∈ d2 :=
    move_mem_mono l2 ((f.name, f) :: d) d2 (f.name, f) hl2
      (List.mem_cons_self _ _)
  have hclash : d2.any (fun p => p.1 = g.name) = true := by
    rw [List.any_eq_true]
    exact ⟨(f.name, f), hmemf, by simp [hname]⟩
  have hgstep : moveStep d2 g = none :=
    moveStep_movable_clash d2 g hg hclash
  refine ⟨?_, hmemf, ?_⟩
  · rw [move_non_archives_cons, hstep]
    show move_non_archives (l2 ++ g :: l3) ((f.name, f) :: d) = Except.error d2
    rw [move_non_archives_append, hl2]
    show move_non_archives (g :: l3) d2 = Except.error d2
    rw [move_non_archives_cons, hgstep]
  · intro hc
    have hc2 : (f.name, g) ∈
        destAfter (move_non_archives l2 ((f.name, f) :: d)) := by
      rw [hl2]
      exact hc
    rcases move_entries_sound l2 ((f.name, f) :: d) (f.name, g) hc2 with h | h
    · rcases List.mem_cons.mp h with h2 | h2
      · have h3 : g = f := congrArg Prod.snd h2
        exact hfg h3.symm
      · exact hgd h2
    · exact hgl2 h.1

/-- Claim C10 (witness): the amended collision behaviour at the two
concrete files `d1/x.txt` and `d2/x.txt`. -/
theorem move_non_archives_basename_collision_aborts_witness :
    move_non_archives
        (WFile.mk "d1" "x.txt" :: ([] ++ WFile.mk "d2" "x.txt" :: [])) [] =
      Except.error [("x.txt", WFile.mk "d1" "x.txt")] ∧
      ("x.txt", WFile.mk "d1" "x.txt") ∈ [("x.txt", WFile.mk "d1" "x.txt")] ∧
      ("x.txt", WFile.mk "d2" "x.txt") ∉ [("x.txt", WFile.mk "d1" "x.txt")] :=
  move_non_archives_basename_collision_aborts [] [] (WFile.mk "d1" "x.txt")
    (WFile.mk "d2" "x.txt") [] [("x.txt", WFile.mk "d1" "x.txt")]
    (by decide) (by decide) (by decide) (by decide) (by rfl)
    (by decide) (by decide) (by decide)

theorem processArchives_fst (delOk : WFile → Bool) (er : WFile → List String) :
    ∀ (cand ws : List WFile) (dest : List String),
      (processArchives delOk er cand (ws, dest)).1 =
        cand.foldl (fun w a => if delOk a then w.erase a else w) ws := by
  intro cand
  induction cand with
  | nil => intro ws dest; rfl
  | cons a rest ih =>
    intro ws dest
    show (processArchives delOk er rest
        (if delOk a then ws.erase a else ws, dest ++ er a)).1 = _
    rw [ih, List.foldl_cons]

theorem foldl_erase_eq_diff (delOk : WFile → Bool) :
    ∀ (cand ws : List WFile), (∀ a ∈ cand, delOk a = true) →
      cand.foldl (fun w a => if delOk a then w.erase a else w) ws =
        ws.diff cand := by
  intro cand
  induction cand with
  | nil => intro ws _; rfl
  | cons a rest ih =>
    intro ws hall
    rw [List.foldl_cons, if_pos (hall a (List.mem_cons_self a rest)),
      List.diff_cons]
    exact ih (ws.erase a) (fun b hb => hall b (List.mem_cons_of_mem a hb))

theorem diff_filter_of_nodup (p : WFile → Bool) :
    ∀ (ws : List WFile), ws.Nodup →
      ws.diff (ws.filter p) = ws.filter (fun a => !p a) := by
  intro ws
  induction ws with
  | nil => intro _; rfl
  | cons a t ih =>
    intro hnd
    have hat : a ∉ t := (List.nodup_cons.mp hnd).1
    have hnt : t.Nodup := (List.nodup_cons.mp hnd).2
    cases hp : p a with
    | true =>
      rw [List.filter_cons, if_pos (by simp [hp]), List.diff_cons,
        List.erase_cons_head, ih hnt, List.filter_cons]
      rw [if_neg (by simp [hp])]
    | false =>
      rw [List.filter_cons, if_neg (by simp [hp])]
      have hnotin : a ∉ t.filter p := fun hc => hat (List.mem_of_mem_filter hc)
      rw [List.cons_diff_of_not_mem hnotin, ih hnt, List.filter_cons,
        if_pos (by simp [hp])]

theorem countCore_after_pass (delOk : WFile → Bool) (er : WFile → List String)
    (ws : List WFile) (dest : List String) (hnd : ws.Nodup)
    (hall : ∀ f ∈ ws, delOk f = true) :
    countCore (processArchives delOk er
      (ws.filter (fun f => is_core_archive f.name)) (ws, dest)).1 = 0 := by
  rw [countCore, processArchives_fst,
    foldl_erase_eq_diff delOk _ ws
      (fun a ha => hall a (List.mem_of_mem_filter ha)),
    diff_filter_of_nodup _ ws hnd]
  rw [List.filter_filter]
  rw [List.filter_eq_nil_iff.mpr (fun a _ => by cases is_core_archive a.name <;> simp)]
  rfl

/-- Claim C1: on a workspace where every deletion succeeds, the resolver
loop terminates — a fuel of one scan more than the number of core
archives suffices — and whenever the workspace still holds a core
archive, one processing pass strictly decreases (in fact zeroes) the
number of core archives remaining in the workspace, extraction output
going to the destination, never back into the workspace. -/
theorem recursively_extract_terminates
    (delOk : WFile → Bool) (er : WFile → List String) (ws : List WFile)
    (dest : List String) (hnd : ws.Nodup)
    (hall : ∀ f ∈ ws, delOk f = true) :
    (∃ r, recursively_extract delOk er (countCore ws + 1) ws dest = some r) ∧
      (0 < countCore ws →
        countCore (processArchives delOk er
          (ws.filter (fun f => is_core_archive f.name)) (ws, dest)).1 <
          countCore ws) := by
  have hzero := countCore_after_pass delOk er ws dest hnd hall
  constructor
  · cases hn : countCore ws with
    | zero =>
      refine ⟨(ws, dest), ?_⟩
      show (if (ws.filter (fun f => is_core_archive f.name)).isEmpty
          then some (ws, dest)
          else
            recursively_extract delOk er 0
              (processArchives delOk er (ws.filter (fun f => is_core_archive f.name)) (ws, dest)).1
              (processArchives delOk er (ws.filter (fun f => is_core_archive f.name)) (ws, dest)).2) =
        some (ws, dest)
      rw [if_pos]
      rw [List.isEmpty_iff_length_eq_zero]
      exact hn
    | succ m =>
      have hne : (ws.filter (fun f => is_core_archive f.name)).isEmpty = false := by
        rw [List.isEmpty_eq_false]
        intro hc
        have hz : countCore ws = 0 := by
          show (ws.filter (fun f => is_core_archive f.name)).length = 0
          rw [hc]
          rfl
        rw [hn] at hz
        exact absurd hz (by simp)
      set st := processArchives delOk er
        (ws.filter (fun f => is_core_archive f.name)) (ws, dest) with hst
      refine ⟨(st.1, st.2), ?_⟩
      show (if (ws.filter (fun f => is_core_archive f.name)).isEmpty
          then some (ws, dest)
          else recursively_extract delOk er (m + 1) st.1 st.2) = some (st.1, st.2)
      rw [if_neg (by rw [hne]; exact Bool.false_ne_true)]
      show (if (st.1.filter (fun f => is_core_archive f.name)).isEmpty
          then some (st.1, st.2)
          else
            recursively_extract delOk er m
              (processArchives delOk er (st.1.filter (fun f => is_core_archive f.name)) (st.1, st.2)).1
              (processArchives delOk er (st.1.filter (fun f => is_core_archive f.name)) (st.1, st.2)).2) =
        some (st.1, st.2)
      rw [if_pos]
      rw [List.isEmpty_iff_length_eq_zero]
      exact hzero
  · intro hpos
    rw [hzero]
    exact hpos

/-- Claim C1 (witness): a two-file workspace with one core archive and
always-succeeding deletion terminates with fuel 2. -/
theorem recursively_extract_terminates_witness :
    ∃ r, recursively_extract (fun _ => true) (fun _ => [])
      (countCore [WFile.mk "" "a.zip", WFile.mk "" "c.txt"] + 1)
      [WFile.mk "" "a.zip", WFile.mk "" "c.txt"] [] = some r :=
  (recursively_extract_terminates (fun _ => true) (fun _ => [])
    [WFile.mk "" "a.zip", WFile.mk "" "c.txt"] [] (by decide) (by decide)).1

/-- Claim C2: whenever the resolver loop reaches its terminating scan
(returns `some`), the final workspace contains zero files the Archive
Classifier marks core — the loop only exits through the empty-candidate
`break`. -/
theorem recursively_extract_no_core_left
    (delOk : WFile → Bool) (er : WFile → List String) :
    ∀ (fuel : Nat) (ws : List WFile) (dest : List String)
      (r : List WFile × List String),
      recursively_extract delOk er fuel ws dest = some r →
      ∀ f ∈ r.1, is_core_archive f.name = false := by
  intro fuel
  induction fuel with
  | zero =>
    intro ws dest r h
    exact absurd h (by simp [recursively_extract])
  | succ m ih =>
    intro ws dest r h
    have h' : (if (ws.filter (fun f => is_core_archive f.name)).isEmpty
        then some (ws, dest)
        else
          recursively_extract delOk er m
            (processArchives delOk er (ws.filter (fun f => is_core_archive f.name)) (ws, dest)).1
            (processArchives delOk er (ws.filter (fun f => is_core_archive f.name)) (ws, dest)).2) =
      some r := h
    split at h'
    · next hemp =>
      have hr : (ws, dest) = r := by injection h'
      subst hr
      intro f hf
      cases hc : is_core_archive f.name with
      | false => rfl
      | true =>
        have : f ∈ ws.filter (fun g => is_core_archive g.name) :=
          List.mem_filter.mpr ⟨hf, by rw [hc]⟩
        rw [List.isEmpty_iff] at hemp
        rw [hemp] at this
        exact absurd this (List.not_mem_nil f)
    · exact ih _ _ r h'

/-- Claim C2 (witness): a workspace holding only a payload file resolves
immediately and indeed retains no core file. -/
theorem recursively_extract_no_core_left_witness :
    is_core_archive (WFile.mk "" "c.txt").name = false :=
  recursively_extract_no_core_left (fun _ => true) (fun _ => []) 1
    [WFile.mk "" "c.txt"] [] ([WFile.mk "" "c.txt"], []) (by decide)
    (WFile.mk "" "c.txt") (by decide)

theorem not_mem_foldl_erase (delOk : WFile → Bool) (f : WFile) :
    ∀ (cand ws : List WFile), f ∉ ws →
      f ∉ cand.foldl (fun w a => if delOk a then w.erase a else w) ws := by
  intro cand
  induction cand with
  | nil => intro ws h; exact h
  | cons a rest ih =>
    intro ws h
    rw [List.foldl_cons]
    apply ih
    by_cases hd : delOk a = true
    · rw [if_pos hd]
      exact fun hc => h (List.mem_of_mem_erase hc)
    · rw [if_neg hd]
      exact h

theorem mem_cand_not_mem_foldl_erase (delOk : WFile → Bool) (f : WFile) :
    ∀ (cand ws : List WFile), ws.Nodup → f ∈ cand → delOk f = true →
      f ∉ cand.foldl (fun w a => if delOk a then w.erase a else w) ws := by
  intro cand
  induction cand with
  | nil => intro ws _ hf _; exact absurd hf (List.not_mem_nil f)
  | cons a rest ih =>
    intro ws hnd hf hdel
    rw [List.foldl_cons]
    by_cases haf : a = f
    · subst haf
      rw [if_pos hdel]
      exact not_mem_foldl_erase delOk a rest (ws.erase a) (hnd.not_mem_erase)
    · have hf' : f ∈ rest := by
        cases List.mem_cons.mp hf with
        | inl h => exact absurd h.symm haf
        | inr h => exact h
      by_cases hd : delOk a = true
      · rw [if_pos hd]
        exact ih (ws.erase a) (hnd.erase a) hf' hdel
      · rw [if_neg hd]
        exact ih ws hnd hf' hdel

/-- Claim C9: the resolver's per-candidate processing deletes each
candidate from the workspace without consulting the extraction outcome:
the resulting workspace is identical for any two extraction-output
functions, and a candidate whose deletion succeeds is gone from the
workspace even if its extraction produced nothing (failed). -/
theorem processArchives_deletes_regardless :
    (∀ (delOk : WFile → Bool) (er1 er2 : WFile → List String)
       (cand ws : List WFile) (dest1 dest2 : List String),
       (processArchives delOk er1 cand (ws, dest1)).1 =
         (processArchives delOk er2 cand (ws, dest2)).1) ∧
    (∀ (delOk : WFile → Bool) (er : WFile → List String) (ws : List WFile)
       (dest : List String) (f : WFile),
       ws.Nodup → f ∈ ws → is_core_archive f.name = true → delOk f = true →
       er f = [] →
       f ∉ (processArchives delOk er
             (ws.filter (fun g => is_core_archive g.name)) (ws, dest)).1) := by
  constructor
  · intro delOk er1 er2 cand ws dest1 dest2
    rw [processArchives_fst, processArchives_fst]
  · intro delOk er ws dest f hnd hf hcore hdel _
    rw [processArchives_fst]
    exact mem_cand_not_mem_foldl_erase delOk f _ ws hnd
      (List.mem_filter.mpr ⟨hf, by rw [hcore]⟩) hdel

/-- Claim C9 (witness): a core archive whose extraction yields nothing is
still deleted from the workspace. -/
theorem processArchives_deletes_regardless_witness :
    WFile.mk "" "a.zip" ∉
      (processArchives (fun _ => true) (fun _ => [])
        (([WFile.mk "" "a.zip", WFile.mk "" "c.txt"]).filter
          (fun g => is_core_archive g.name))
        ([WFile.mk "" "a.zip", WFile.mk "" "c.txt"], [])).1 :=
  processArchives_deletes_regardless.2 (fun _ => true) (fun _ => [])
    [WFile.mk "" "a.zip", WFile.mk "" "c.txt"] [] (WFile.mk "" "a.zip")
    (by decide) (by decide) (by decide) (by decide) (by decide)

theorem orchestrate_nil (m : Nat) (folders : List String) (c : Nat) :
    orchestrate m [] folders c = ([], folders) := rfl

theorem orchestrate_cons (m : Nat) (a : String) (rest folders : List String)
    (c : Nat) :
    orchestrate m (a :: rest) folders c =
      if m ≠ 0 ∧ m ≤ c then ([], folders)
      else if stem a ∈ folders then orchestrate m rest folders c
      else
        ((a :: (orchestrate m rest (stem a :: folders) (c + 1)).1),
          (orchestrate m rest (stem a :: folders) (c + 1)).2) := rfl

theorem orchestrate_folders_mono (m : Nat) :
    ∀ (archives folders : List String) (c : Nat),
      ∀ d ∈ folders, d ∈ (orchestrate m archives folders c).2 := by
  intro archives
  induction archives with
  | nil => intro folders c d hd; exact hd
  | cons a rest ih =>
    intro folders c d hd
    rw [orchestrate_cons]
    by_cases hb : m ≠ 0 ∧ m ≤ c
    · rw [if_pos hb]; exact hd
    · rw [if_neg hb]
      by_cases hs : stem a ∈ folders
      · rw [if_pos hs]; exact ih folders c d hd
      · rw [if_neg hs]
        exact ih (stem a :: folders) (c + 1) d (List.mem_cons_of_mem _ hd)

theorem orchestrate_unlimited_covers :
    ∀ (archives folders : List String) (c : Nat),
      ∀ a ∈ archives, stem a ∈ (orchestrate 0 archives folders c).2 := by
  intro archives
  induction archives with
  | nil => intro folders c a ha; exact absurd ha (List.not_mem_nil a)
  | cons b rest ih =>
    intro folders c a ha
    rw [orchestrate_cons, if_neg (by simp)]
    by_cases hs : stem b ∈ folders
    · rw [if_pos hs]
      cases List.mem_cons.mp ha with
      | inl h => exact h ▸ orchestrate_folders_mono 0 rest folders c _ hs
      | inr h => exact ih folders c a h
    · rw [if_neg hs]
      cases List.mem_cons.mp ha with
      | inl h =>
        exact h ▸ orchestrate_folders_mono 0 rest (stem b :: folders) (c + 1)
          (stem b) (List.mem_cons_self _ _)
      | inr h => exact ih (stem b :: folders) (c + 1) a h

theorem orchestrate_all_skipped (m : Nat) :
    ∀ (archives folders : List String) (c : Nat),
      (∀ a ∈ archives, stem a ∈ folders) →
      orchestrate m archives folders c = ([], folders) := by
  intro archives
  induction archives with
  | nil => intro folders c _; rfl
  | cons a rest ih =>
    intro folders c hall
    rw [orchestrate_cons]
    by_cases hb : m ≠ 0 ∧ m ≤ c
    · rw [if_pos hb]
    · rw [if_neg hb, if_pos (hall a (List.mem_cons_self a rest))]
      exact ih folders c (fun b hb2 => hall b (List.mem_cons_of_mem a hb2))

/-- Claim C6: re-running the Batch Orchestrator (uncapped, the default)
over the same archives with the folders produced by the first run
processes zero archives, and in general an archive whose `stem`-named
destination folder already exists is skipped — the existing folder is
the persisted completion marker. -/
theorem orchestrate_idempotent :
    (∀ (archives folders : List String),
       (orchestrate 0 archives (orchestrate 0 archives folders 0).2 0).1 = []) ∧
    (∀ (m : Nat) (a : String) (rest folders : List String) (c : Nat),
       ¬(m ≠ 0 ∧ m ≤ c) → stem a ∈ folders →
       orchestrate m (a :: rest) folders c = orchestrate m rest folders c) := by
  constructor
  · intro archives folders
    rw [orchestrate_all_skipped 0 archives (orchestrate 0 archives folders 0).2 0
      (fun a ha => orchestrate_unlimited_covers archives folders 0 a ha)]
  · intro m a rest folders c hb hs
    rw [orchestrate_cons, if_neg hb, if_pos hs]

/-- Claim C6 (witness): with `a.zip`'s folder `a` already on disk, the
orchestrator's step skips it. -/
theorem orchestrate_idempotent_witness :
    orchestrate 1 ["a.zip"] ["a"] 0 = orchestrate 1 [] ["a"] 0 :=
  orchestrate_idempotent.2 1 "a.zip" [] ["a"] 0 (by decide) (by decide)

/-- Claim C7 (counterexample): in `mass_extractor.py`, a cap of 0 does
not mean unlimited — with two eligible archives and a library that
always succeeds, `processed_count >= 0` breaks the loop after the first
archive, and an absent cap (`num_files = None`) raises a `TypeError` at
the first comparison instead of processing every archive. -/
theorem me_loop_cap_zero_not_unlimited :
    me_loop (some 0) (fun _ => LibRun.ok) ["a.zip", "b.zip"] [] 0 0 =
      Except.ok (1, 0) ∧
    me_loop none (fun _ => LibRun.ok) ["a.zip", "b.zip"] [] 0 0 =
      Except.error () := ⟨rfl, rfl⟩

theorem me_loop_cons_fresh (numFiles : Option Nat) (outcome : String → LibRun)
    (a : String) (rest folders : List String) (p s : Nat)
    (hs : stem a ∉ folders) :
    me_loop numFiles outcome (a :: rest) folders p s =
      match numFiles with
      | none => Except.error ()
      | some n =>
        if n ≤ (if me_extract_archive (outcome a) a then p + 1 else p) then
          Except.ok ((if me_extract_archive (outcome a) a then p + 1 else p), s)
        else
          me_loop numFiles outcome rest
            (if me_extract_archive (outcome a) a then stem a :: folders
             else folders)
            (if me_extract_archive (outcome a) a then p + 1 else p) s := by
  show (if stem a ∈ folders then me_loop numFiles outcome rest folders p (s + 1)
      else _) = _
  rw [if_neg hs]

/-- Claim C7 (amended): the two programs cap differently.  In
`multi_part_extractor.py`, a cap of 0 (the default) is unlimited — the
run equals the reference `processAll`, which visits every archive and
processes each one whose destination folder does not yet exist — and a
non-zero cap `m` entered with count `c` processes at most `m - c`
archives (counted per processed archive, successful or not).  In
`mass_extractor.py`, on a fresh first archive, a cap of 0 stops the run
right after that single archive (its `processed_count >= 0` check is
always true), and an absent cap raises a `TypeError` there instead. -/
theorem orchestrate_cap_behaviour :
    (∀ (archives folders : List String) (c : Nat),
       orchestrate 0 archives folders c = processAll archives folders) ∧
    (∀ (m : Nat) (archives folders : List String) (c : Nat),
       m ≠ 0 → c ≤ m → (orchestrate m archives folders c).1.length ≤ m - c) ∧
    (∀ (outcome : String → LibRun) (a : String) (rest folders : List String),
       stem a ∉ folders →
       me_loop (some 0) outcome (a :: rest) folders 0 0 =
         Except.ok ((if me_extract_archive (outcome a) a then 1 else 0), 0)) ∧
    (∀ (outcome : String → LibRun) (a : String) (rest folders : List String),
       stem a ∉ folders →
       me_loop none outcome (a :: rest) folders 0 0 = Except.error ()) := by
  refine ⟨?_, ?_, ?_, ?_⟩
  · intro archives
    induction archives with
    | nil => intro folders c; rfl
    | cons a rest ih =>
      intro folders c
      rw [orchestrate_cons, if_neg (by simp)]
      show _ = (if stem a ∈ folders then processAll rest folders
        else ((a :: (processAll rest (stem a :: folders)).1),
          (processAll rest (stem a :: folders)).2))
      by_cases hs : stem a ∈ folders
      · rw [if_pos hs, if_pos hs, ih folders c]
      · rw [if_neg hs, if_neg hs, ih (stem a :: folders) (c + 1)]
  · intro m archives
    induction archives with
    | nil => intro folders c _ _; simp [orchestrate_nil]
    | cons a rest ih =>
      intro folders c hm hc
      rw [orchestrate_cons]
      by_cases hb : m ≠ 0 ∧ m ≤ c
      · rw [if_pos hb]; simp
      · rw [if_neg hb]
        have hlt : c < m := by
          rcases Nat.lt_or_ge c m with h | h
          · exact h
          · exact absurd ⟨hm, h⟩ hb
        by_cases hs : stem a ∈ folders
        · rw [if_pos hs]
          exact ih folders c hm hc
        · rw [if_neg hs]
          have := ih (stem a :: folders) (c + 1) hm hlt
          show (orchestrate m rest (stem a :: folders) (c + 1)).1.length + 1 ≤ m - c
          omega
  · intro outcome a rest folders hs
    rw [me_loop_cons_fresh (some 0) outcome a rest folders 0 0 hs]
    cases me_extract_archive (outcome a) a <;> rfl
  · intro outcome a rest folders hs
    rw [me_loop_cons_fresh none outcome a rest folders 0 0 hs]

/-- Claim C7 (witness): the amended cap behaviour at concrete inputs —
cap 1 on two fresh archives processes at most one, and `mass_extractor`
with cap 0 stops after the single first archive. -/
theorem orchestrate_cap_behaviour_witness :
    (orchestrate 1 ["a.zip", "b.zip"] [] 0).1.length ≤ 1 - 0 ∧
      me_loop (some 0) (fun _ => LibRun.raises) ["a.zip", "b.zip"] [] 0 0 =
        Except.ok
          ((if me_extract_archive ((fun _ => LibRun.raises) "a.zip") "a.zip"
            then 1 else 0), 0) :=
  ⟨orchestrate_cap_behaviour.2.1 1 ["a.zip", "b.zip"] [] 0 (by decide) (by decide),
    orchestrate_cap_behaviour.2.2.1 (fun _ => LibRun.raises) "a.zip" ["b.zip"] []
      (by decide)⟩

theorem dropWhile_append_of_all (p : Char → Bool) :
    ∀ (u v : List Char), (∀ c ∈ u, p c = true) →
      (u ++ v).dropWhile p = v.dropWhile p := by
  intro u
  induction u with
  | nil => intro v _; rfl
  | cons c t ih =>
    intro v hall
    rw [List.cons_append, List.dropWhile_cons,
      if_pos (hall c (List.mem_cons_self c t))]
    exact ih v (fun d hd => hall d (List.mem_cons_of_mem c hd))

theorem takeWhile_append_of_all (p : Char → Bool) :
    ∀ (u v : List Char), (∀ c ∈ u, p c = true) →
      (u ++ v).takeWhile p = u ++ v.takeWhile p := by
  intro u
  induction u with
  | nil => intro v _; rfl
  | cons c t ih =>
    intro v hall
    rw [List.cons_append, List.takeWhile_cons,
      if_pos (hall c (List.mem_cons_self c t)), ih v
        (fun d hd => hall d (List.mem_cons_of_mem c hd)), List.cons_append]

theorem string_mk_data (s : String) : String.mk s.data = s := rfl

theorem string_data_append (s t : String) : (s ++ t).data = s.data ++ t.data := rfl

theorem string_data_ne_nil (s : String) (h : s ≠ "") : s.data ≠ [] := by
  intro hc
  apply h
  cases s with
  | mk l => cases hc; rfl

theorem rev_append_dot (l t : List Char) :
    (l ++ '.' :: t).reverse = t.reverse ++ '.' :: l.reverse := by
  rw [List.reverse_append, List.reverse_cons, List.append_assoc,
    List.singleton_append]

theorem stemChars_append (l t : List Char) (ht : ∀ c ∈ t, c ≠ '.')
    (htne : t ≠ []) (hlne : l ≠ []) :
    stemChars (l ++ '.' :: t) = l := by
  have hallrev : ∀ c ∈ t.reverse, (fun c => decide (c ≠ '.')) c = true := by
    intro c hc
    simp only [decide_eq_true_eq]
    exact ht c (List.mem_reverse.mp hc)
  have hdrop : ((l ++ '.' :: t).reverse).dropWhile (fun c => decide (c ≠ '.')) =
      '.' :: l.reverse := by
    rw [rev_append_dot, dropWhile_append_of_all _ _ _ hallrev,
      List.dropWhile_cons, if_neg (by simp)]
  have htake : ((l ++ '.' :: t).reverse).takeWhile (fun c => decide (c ≠ '.')) =
      t.reverse := by
    rw [rev_append_dot, takeWhile_append_of_all _ _ _ hallrev,
      List.takeWhile_cons, if_neg (by simp), List.append_nil]
  show (let rev := (l ++ '.' :: t).reverse
    let pre := rev.dropWhile (fun c => c ≠ '.')
    if pre = [] then l ++ '.' :: t
    else if pre.tail = [] then l ++ '.' :: t
    else if rev.takeWhile (fun c => c ≠ '.') = [] then l ++ '.' :: t
    else pre.tail.reverse) = l
  simp only [hdrop, htake]
  rw [if_neg (by simp), if_neg (by simp [hlne]), if_neg (by simp [htne]),
    List.tail_cons, List.reverse_reverse]

/-- Claim C8 (counterexample): the file named exactly `.rar` is a core
archive (so it is processed as a top-level archive), its
suffix-stripped name per the claim is the empty string, yet the code's
destination folder name (`Path.stem`) keeps the full name `.rar` —
pathlib treats a lone leading dot as no suffix at all. -/
theorem stem_differs_from_stripped_suffix :
    is_core_archive ".rar" = true ∧ specStrippedName ".rar" = "" ∧
      stem ".rar" = ".rar" ∧ stem ".rar" ≠ specStrippedName ".rar" := by decide

/-- Claim C8 (amended): for every processed top-level archive whose name
is not the bare suffix itself, the destination subfolder name (the
code's `Path.stem`) is the filename with its recognized archive suffix
stripped: `base.rar` / `base.zip` / `base.7z` map to `base` whenever
`base` is nonempty, and `base.7z.001` maps to `base.7z` for every
`base`; in particular `movie.7z.001` produces folder `movie.7z`.  A
file named exactly `.rar` / `.zip` / `.7z` keeps its full name. -/
theorem stem_strips_archive_suffix :
    (∀ base : String, base ≠ "" →
      stem (base ++ ".rar") = base ∧ stem (base ++ ".zip") = base ∧
        stem (base ++ ".7z") = base) ∧
    (∀ base : String, stem (base ++ ".7z.001") = base ++ ".7z") ∧
    is_core_archive "movie.7z.001" = true ∧ stem "movie.7z.001" = "movie.7z" := by
  refine ⟨?_, ?_, by decide, by decide⟩
  · intro base hb
    have hd := string_data_ne_nil base hb
    refine ⟨?_, ?_, ?_⟩
    · show String.mk (stemChars (base ++ ".rar").data) = base
      rw [string_data_append]
      rw [show (".rar" : String).data = '.' :: ['r', 'a', 'r'] from rfl]
      rw [stemChars_append base.data ['r', 'a', 'r'] (by decide) (by decide) hd]
    · show String.mk (stemChars (base ++ ".zip").data) = base
      rw [string_data_append]
      rw [show (".zip" : String).data = '.' :: ['z', 'i', 'p'] from rfl]
      rw [stemChars_append base.data ['z', 'i', 'p'] (by decide) (by decide) hd]
    · show String.mk (stemChars (base ++ ".7z").data) = base
      rw [string_data_append]
      rw [show (".7z" : String).data = '.' :: ['7', 'z'] from rfl]
      rw [stemChars_append base.data ['7', 'z'] (by decide) (by decide) hd]
  · intro base
    show String.mk (stemChars (base ++ ".7z.001").data) = base ++ ".7z"
    rw [string_data_append]
    rw [show (".7z.001" : String).data =
      ('.' :: ['7', 'z']) ++ '.' :: ['0', '0', '1'] from rfl]
    rw [← List.append_assoc]
    rw [stemChars_append (base.data ++ '.' :: ['7', 'z']) ['0', '0', '1']
      (by decide) (by decide) (by simp)]
    rw [show ('.' :: ['7', 'z'] : List Char) = (".7z" : String).data from rfl]
    rw [← string_data_append, string_mk_data]

/-- Claim C8 (witness): the amended stripping rule applied to
`movie.7z.001` and to a nonempty `.rar` base. -/
theorem stem_strips_archive_suffix_witness :
    stem ("movie" ++ ".rar") = "movie" ∧ stem ("movie" ++ ".7z.001") = "movie" ++ ".7z" :=
  ⟨((stem_strips_archive_suffix.1 "movie" (by decide)).1),
    stem_strips_archive_suffix.2.1 "movie"⟩

end Extractor
